import Mathlib

set_option linter.unusedVariables false

/-!
# Verification of the HR-assistant extraction & ranking pipeline

Shallow embedding of the pure logic of `src/backend/resume_parser.py`,
`src/backend/candidate_ranker.py` and the candidate filter in
`src/backend/main.py`.

Modelling conventions:
* Python `dict`s (candidate records, parsed JSON objects) are association
  lists with insertion-order semantics; `dictInsert` models `d[k] = v`
  (overwrite keeps the original position, fresh keys are appended), and
  `pyMerge` models the dict-literal merge `{**a, **b}`.
* JSON values are the inductive `Json`; numbers keep their lexed token
  (`Json.num "50"`), which is faithful for the integer scores these claims
  are about (float comparison semantics are outside the model).
* Text handled by the regex recovery code is `List Char`.
* Calls to the external generative service are modelled by an explicit
  outcome parameter (`Except`): the service is a black box, only the
  pipeline's handling of its response text is code under verification.
-/

/-- JSON values as produced by `json.loads`.  Numbers keep their source
token; objects keep Python-dict key semantics (unique keys, insertion
order, duplicate keys resolved last-value-wins at parse time). -/
inductive Json where
  | null : Json
  | bool (b : Bool) : Json
  | num (lit : String) : Json
  | str (s : String) : Json
  | arr (elems : List Json) : Json
  | obj (fields : List (String × Json)) : Json

/-- A Python dict with string keys, e.g. a candidate record. -/
abbrev Record := List (String × Json)

/-- `d.get(k)` / `d[k]` lookup: first (unique) binding of `k`. -/
def pyGet (r : Record) (k : String) : Option Json :=
  match r with
  | [] => none
  | (k2, v) :: rest => if k2 = k then some v else pyGet rest k

/-- `k in d`. -/
def hasKey (r : Record) (k : String) : Bool := (pyGet r k).isSome

/-- `d[k] = v`: overwrite the (unique) existing binding in place,
append a fresh key at the end. -/
def dictInsert (r : Record) (k : String) (v : Json) : Record :=
  match r with
  | [] => [(k, v)]
  | (k2, w) :: rest => if k2 = k then (k, v) :: rest else (k2, w) :: dictInsert rest k v

/-- `{**r, **s}`: start from `r`, then insert every binding of `s` in order. -/
def pyMerge (r s : Record) : Record :=
  s.foldl (fun acc p => dictInsert acc p.1 p.2) r

/-- Last binding of `k` in `s` (the value that survives a dict merge). -/
def lastVal (s : Record) (k : String) : Option Json :=
  match s with
  | [] => none
  | (k2, v) :: rest =>
    match lastVal rest k with
    | some w => some w
    | none => if k2 = k then some v else none

/-! ## Regex models: the JSON-recovery span selection and comma repair

`resume_parser.extract_json` (lines 46-62) and the inline recovery in
`candidate_ranker.evaluate_candidate` (lines 65-76) use the same two
patterns, so the span-selection model is shared:
* `re.search(r'```json\s*(\{.*?\})\s*```', text, re.DOTALL)` — leftmost
  start, lazy body: the group ends at the first `}` that is followed by
  optional whitespace and a closing fence;
* `re.search(r'(\{.*\})', text, re.DOTALL)` — greedy: from the first `{`
  that has a `}` after it, to the last `}` of the whole text.
`\s` is modelled as the ASCII whitespace class. -/

/-- The regex `\s` class (ASCII part). -/
def isReWs (c : Char) : Bool :=
  c = ' ' || c = '\t' || c = '\n' || c = '\r' || c = '\x0b' || c = '\x0c'

/-- Strip a literal prefix, returning the remainder on success. -/
def dropLit : List Char → List Char → Option (List Char)
  | [], s => some s
  | _, [] => none
  | p :: ps, c :: cs => if c = p then dropLit ps cs else none

/-- Lazy body of `\{(.*?)\}` with continuation `\s*\x60\x60\x60`: the chars up
to (excluding) the first `}` that is followed by `ws* \x60\x60\x60`. -/
def fencedBody : List Char → Option (List Char)
  | [] => none
  | c :: rest =>
    if c = '}' ∧ (dropLit ("```".data) (rest.dropWhile isReWs)).isSome then some []
    else (fencedBody rest).map (c :: ·)

/-- Try the fenced-block pattern anchored at the start of `s`. -/
def attemptFenced (s : List Char) : Option (List Char) :=
  match dropLit ("```json".data) s with
  | none => none
  | some r1 =>
    match r1.dropWhile isReWs with
    | '{' :: r2 => (fencedBody r2).map (fun b => '{' :: (b ++ ['}']))
    | _ => none

/-- `re.search` of the fenced pattern: scan every start position, leftmost
match wins; returns capture group 1 (the `{...}` span). -/
def findFenced : List Char → Option (List Char)
  | [] => none
  | c :: rest =>
    match attemptFenced (c :: rest) with
    | some g => some g
    | none => findFenced rest

/-- `re.search(r'(\{.*\})', text, re.DOTALL)`: the span from the first `{`
to the last `}` of the text, provided that `}` is after the `{`. -/
def braceSpan (s : List Char) : Option (List Char) :=
  match s.dropWhile (· ≠ '{') with
  | [] => none
  | _ :: r =>
    if ((r.reverse.dropWhile (· ≠ '}')).reverse).isEmpty then none
    else some ('{' :: (r.reverse.dropWhile (· ≠ '}')).reverse)

/-- The shared span selection: fenced block first, else greedy brace span
(`extract_json` lines 48-56 and `evaluate_candidate` lines 66-74 contain
this identical logic). `none` models the raised `ValueError`. -/
def selectJsonSpan (t : List Char) : Option (List Char) :=
  match findFenced t with
  | some g => some g
  | none => braceSpan t

/-- Match `\s*c` at the head of `s`, returning the remainder after `c`. -/
def reWsThen (close : Char) (s : List Char) : Option (List Char) :=
  match s.dropWhile isReWs with
  | c :: rest => if c = close then some rest else none
  | [] => none

/-- One pass of `re.sub(r',\s*C', 'C', s)` for a closing char `C`:
non-overlapping leftmost matches, scanning resumes after each
replacement.  Note the substitution is purely textual — it applies inside
string literals as well.  Every step strictly shortens the text, so fuel
equal to the length never runs out. -/
def subCommaCloseF (close : Char) : Nat → List Char → List Char
  | 0, l => l
  | _, [] => []
  | fuel + 1, c :: rest =>
    if c = ',' then
      match reWsThen close rest with
      | some rest2 => close :: subCommaCloseF close fuel rest2
      | none => ',' :: subCommaCloseF close fuel rest
    else c :: subCommaCloseF close fuel rest

def subCommaClose (close : Char) (l : List Char) : List Char :=
  subCommaCloseF close l.length l

/-- `extract_json` lines 58-60: strip trailing commas before `}` and then
before `]`. -/
def jsonRepair (s : List Char) : List Char :=
  subCommaClose ']' (subCommaClose '}' s)

/-! ## Model of `json.loads`

Recursive-descent parser for the JSON grammar as accepted by Python's
`json.loads` (strict mode): the four JSON whitespace characters, `null`,
`true`, `false`, the `NaN`/`Infinity` extensions, numbers
`-?(0|[1-9][0-9]*)(\.[0-9]+)?([eE][+-]?[0-9]+)?` kept as their token,
strings with the standard escapes (raw control characters rejected),
arrays and objects without trailing commas, duplicate object keys
resolved last-value-wins in place.  The whole input must be consumed
(apart from trailing whitespace).  A fuel argument (the input length
suffices) makes the recursion structural. -/

/-- JSON's own whitespace class (narrower than the regex `\s`). -/
def isJsonWs (c : Char) : Bool :=
  c = ' ' || c = '\t' || c = '\n' || c = '\r'

def skipJsonWs (s : List Char) : List Char := s.dropWhile isJsonWs

def hexVal (c : Char) : Option Nat :=
  if '0' ≤ c ∧ c ≤ '9' then some (c.toNat - 48)
  else if 'a' ≤ c ∧ c ≤ 'f' then some (c.toNat - 87)
  else if 'A' ≤ c ∧ c ≤ 'F' then some (c.toNat - 55)
  else none

/-- String body after the opening quote: returns (content, rest after the
closing quote). -/
def parseJStr : Nat → List Char → Option (List Char × List Char)
  | 0, _ => none
  | _, [] => none
  | fuel + 1, c :: rest =>
    if c = '"' then some ([], rest)
    else if c = '\\' then
      match rest with
      | [] => none
      | e :: rest2 =>
        if e = '"' then (parseJStr fuel rest2).map (fun p => ('"' :: p.1, p.2))
        else if e = '\\' then (parseJStr fuel rest2).map (fun p => ('\\' :: p.1, p.2))
        else if e = '/' then (parseJStr fuel rest2).map (fun p => ('/' :: p.1, p.2))
        else if e = 'b' then (parseJStr fuel rest2).map (fun p => ('\x08' :: p.1, p.2))
        else if e = 'f' then (parseJStr fuel rest2).map (fun p => ('\x0c' :: p.1, p.2))
        else if e = 'n' then (parseJStr fuel rest2).map (fun p => ('\n' :: p.1, p.2))
        else if e = 'r' then (parseJStr fuel rest2).map (fun p => ('\r' :: p.1, p.2))
        else if e = 't' then (parseJStr fuel rest2).map (fun p => ('\t' :: p.1, p.2))
        else if e = 'u' then
          match rest2 with
          | h1 :: h2 :: h3 :: h4 :: rest3 =>
            match hexVal h1, hexVal h2, hexVal h3, hexVal h4 with
            | some a, some b, some c2, some d =>
              (parseJStr fuel rest3).map
                (fun p => (Char.ofNat (((a * 16 + b) * 16 + c2) * 16 + d) :: p.1, p.2))
            | _, _, _, _ => none
          | _ => none
        else none
    else if c.toNat < 32 then none
    else (parseJStr fuel rest).map (fun p => (c :: p.1, p.2))

/-- Integer part of a JSON number: `0` or `[1-9][0-9]*`. -/
def lexIntPart : List Char → Option (List Char × List Char)
  | [] => none
  | c :: rest =>
    if c = '0' then some (['0'], rest)
    else if c.isDigit then
      some (c :: rest.takeWhile Char.isDigit, rest.dropWhile Char.isDigit)
    else none

/-- Optional fraction `(\.[0-9]+)?`. -/
def lexFrac : List Char → (List Char × List Char)
  | '.' :: rest =>
    let ds := rest.takeWhile Char.isDigit
    if ds.isEmpty then ([], '.' :: rest)
    else ('.' :: ds, rest.dropWhile Char.isDigit)
  | s => ([], s)

/-- Optional exponent `([eE][+-]?[0-9]+)?`. -/
def lexExp : List Char → (List Char × List Char)
  | e :: g :: rest =>
    if e = 'e' ∨ e = 'E' then
      if g = '+' ∨ g = '-' then
        let ds := rest.takeWhile Char.isDigit
        if ds.isEmpty then ([], e :: g :: rest)
        else (e :: g :: ds, rest.dropWhile Char.isDigit)
      else
        let ds := (g :: rest).takeWhile Char.isDigit
        if ds.isEmpty then ([], e :: g :: rest)
        else (e :: ds, (g :: rest).dropWhile Char.isDigit)
    else ([], e :: g :: rest)
  | s => ([], s)

/-- Lex a JSON number token (sign, integer part, fraction, exponent). -/
def lexNumber : List Char → Option (List Char × List Char)
  | '-' :: rest =>
    (lexIntPart rest).map (fun p =>
      let f := lexFrac p.2
      let e := lexExp f.2
      ('-' :: (p.1 ++ f.1 ++ e.1), e.2))
  | s =>
    (lexIntPart s).map (fun p =>
      let f := lexFrac p.2
      let e := lexExp f.2
      (p.1 ++ f.1 ++ e.1, e.2))

mutual

/-- Parse one JSON value, skipping leading whitespace. -/
def parseValue : Nat → List Char → Option (Json × List Char)
  | 0, _ => none
  | fuel + 1, s =>
    let t := skipJsonWs s
    match t with
    | [] => none
    | c :: rest =>
      if c = '{' then parseMembers fuel rest true []
      else if c = '[' then parseElems fuel rest true []
      else if c = '"' then
        (parseJStr (fuel + 1) rest).map (fun p => (Json.str (String.mk p.1), p.2))
      else
        match dropLit ("true".data) t with
        | some r => some (Json.bool true, r)
        | none =>
        match dropLit ("false".data) t with
        | some r => some (Json.bool false, r)
        | none =>
        match dropLit ("null".data) t with
        | some r => some (Json.null, r)
        | none =>
        match dropLit ("NaN".data) t with
        | some r => some (Json.num "NaN", r)
        | none =>
        match dropLit ("Infinity".data) t with
        | some r => some (Json.num "Infinity", r)
        | none =>
        match dropLit ("-Infinity".data) t with
        | some r => some (Json.num "-Infinity", r)
        | none =>
        (lexNumber t).map (fun p => (Json.num (String.mk p.1), p.2))

/-- Members of an object, positioned just after `{` (when `first`) or just
after a separating comma (`first = false`, where `}` is not allowed). -/
def parseMembers : Nat → List Char → Bool → List (String × Json) →
    Option (Json × List Char)
  | 0, _, _, _ => none
  | fuel + 1, s, first, acc =>
    match skipJsonWs s with
    | '}' :: r => if first then some (Json.obj acc, r) else none
    | '"' :: r1 =>
      match parseJStr (fuel + 1) r1 with
      | none => none
      | some (key, r2) =>
        match skipJsonWs r2 with
        | ':' :: r3 =>
          match parseValue fuel r3 with
          | none => none
          | some (v, r4) =>
            let acc2 := dictInsert acc (String.mk key) v
            match skipJsonWs r4 with
            | ',' :: r5 => parseMembers fuel r5 false acc2
            | '}' :: r5 => some (Json.obj acc2, r5)
            | _ => none
        | _ => none
    | _ => none

/-- Elements of an array, positioned just after `[` (when `first`) or just
after a separating comma. -/
def parseElems : Nat → List Char → Bool → List Json → Option (Json × List Char)
  | 0, _, _, _ => none
  | fuel + 1, s, first, acc =>
    match skipJsonWs s with
    | ']' :: r => if first then some (Json.arr acc.reverse, r) else none
    | t =>
      match parseValue fuel t with
      | none => none
      | some (v, r1) =>
        match skipJsonWs r1 with
        | ',' :: r2 => parseElems fuel r2 false (v :: acc)
        | ']' :: r2 => some (Json.arr (v :: acc).reverse, r2)
        | _ => none

end

/-- `json.loads`: parse one value and require only whitespace after it. -/
def json_loads (s : List Char) : Option Json :=
  match parseValue (s.length + 1) s with
  | some (v, rest) => if (skipJsonWs rest).isEmpty then some v else none
  | none => none

/-- `resume_parser.extract_json` (lines 46-62): select the span, strip
trailing commas, then parse.  `none` models the raised exception
(`ValueError` when no span is found, `JSONDecodeError` from
`json.loads`). -/
def extract_json (t : List Char) : Option Json :=
  match selectJsonSpan t with
  | none => none
  | some s => json_loads (jsonRepair s)

/-- The inline JSON recovery in `candidate_ranker.evaluate_candidate`
(lines 65-76): the same span selection, but the selected span is passed
to `json.loads` directly — there is no trailing-comma repair step. -/
def ranker_extract_json (t : List Char) : Option Json :=
  match selectJsonSpan t with
  | none => none
  | some s => json_loads s

/-! ## `resume_parser.parse_resume` and its helpers

`load_pdf`, `embed_chunks` and the network call inside
`generate_candidate_info` are external effects; each is modelled by an
explicit outcome parameter.  The message text of a raised exception is
immaterial to every claim and is modelled by a representative string. -/

/-- Python `len(v)` on a JSON value: defined for strings, lists and
dicts; `none` models the `TypeError` raised on numbers, booleans and
`None`. -/
def pyLen : Json → Option Nat
  | Json.str s => some s.length
  | Json.arr xs => some xs.length
  | Json.obj kvs => some kvs.length
  | _ => none

/-- The `{"error": msg}` sentinel record. -/
def errorRecord (msg : String) : Record := [("error", Json.str msg)]

/-- `generate_candidate_info` (lines 65-108): on any exception from the
service call or from `extract_json`, returns the error record; on
success returns the parsed object's fields.  `extract_json` can only
return an object when it succeeds (its span starts with `\x7b`, see
`extract_json_isObj` below), so the catch-all branch is the
raised-exception path. -/
def generate_candidate_info (callOutcome : Except String (List Char)) : Record :=
  match callOutcome with
  | Except.error e => errorRecord ("Failed to parse resume: " ++ e)
  | Except.ok text =>
    match extract_json text with
    | some (Json.obj kvs) => kvs
    | _ => errorRecord "Failed to parse resume: malformed response"

/-- `parse_resume` (lines 112-136).  `prepOutcome = some e` models an
exception raised by `load_pdf` / `embed_chunks` / `retrieve_chunks`
before the extraction call; the outer `except` turns it into an error
record.  On a successful extraction without an `"error"` key, the
preliminary score `min(len(skills)*10, 100)` is attached; `len` of a
non-sized value raises, which the outer `except` also turns into an
error record. -/
def parse_resume (prepOutcome : Option String)
    (callOutcome : Except String (List Char)) : Record :=
  match prepOutcome with
  | some e => errorRecord e
  | none =>
    let candidate := generate_candidate_info callOutcome
    if hasKey candidate "error" then candidate
    else
      match pyLen ((pyGet candidate "skills").getD (Json.arr [])) with
      | none => errorRecord "TypeError: object has no len()"
      | some n =>
        dictInsert candidate "preliminary_score" (Json.num (Nat.repr (min (n * 10) 100)))

/-- The caller's filter (`main.upload_resumes` lines 89-90): only records
without an `"error"` key are kept for ranking. -/
def keepParsed (parsed : List Record) : List Record :=
  parsed.filter (fun c => !(hasKey c "error"))

/-! ## Stable sorting

Python's `sorted` and (for the tie sizes exercised here) NumPy's argsort
are stable; a stable sort w.r.t. a total transitive boolean "may precede"
relation is unique, so insertion sort is an exact model and computes by
`rfl`. -/

/-- Insert `x` (which precedes all of `l` in the input) before the first
element it may precede. -/
def insertLe {α : Type} (le : α → α → Bool) (x : α) : List α → List α
  | [] => [x]
  | y :: ys => if le x y then x :: y :: ys else y :: insertLe le x ys

/-- Stable sort w.r.t. `le`. -/
def insertionSort {α : Type} (le : α → α → Bool) : List α → List α
  | [] => []
  | x :: xs => insertLe le x (insertionSort le xs)

/-! ## `resume_parser.retrieve_chunks`

The embedding model and float cosine similarities are external (floating
point is outside the model); the similarity row
`cosine_similarity(query_emb, embeddings)[0]` is taken as an input list
of integer scores, 1:1 with `docs`.  What remains — `argsort`, the
`[-top_k:]` slice, the `[::-1]` reversal and the indexed gather — is the
code under verification.

`numpy.argsort`'s default sort (quicksort/introsort) is documented as
not stable: its contract is only that it returns *some* permutation of
the positions along which the values are non-decreasing; the order of
equal values is unspecified for large arrays.  General statements are
therefore made over any `isArgsortOf` witness.  Below NumPy's
insertion-sort cutoff (fewer than 17 elements) the default sort runs a
plain insertion sort, which IS stable; `argsortStable` models exactly
that small-array regime and is used only to compute the concrete
small-input counterexample. -/

/-- Similarity of chunk `i` (in-range for every index the code produces). -/
def simD (sim : List Int) (i : Nat) : Int := sim.getD i 0

/-- What `numpy.argsort` guarantees for every input: a permutation of
all positions along which the similarities are non-decreasing.  The
order of tied positions is NOT specified. -/
def isArgsortOf (sim : List Int) (arg : List Nat) : Prop :=
  List.Perm arg (List.range sim.length)
  ∧ arg.Pairwise (fun i j => simD sim i ≤ simD sim j)

/-- Ascending stable ordering on (index, value) pairs: value first, ties
by index. -/
def enumLexLe (p q : Nat × Int) : Bool :=
  decide (p.2 < q.2 ∨ (p.2 = q.2 ∧ p.1 ≤ q.1))

/-- `numpy.argsort` in the small-array regime (below the introsort
cutoff the default sort is a stable insertion sort, so ties keep index
order); exact for the 1- and 2-element counterexample inputs. -/
def argsortStable (sim : List Int) : List Nat :=
  (insertionSort enumLexLe sim.enum).map Prod.fst

/-- Python `l[-k:]` for `k ≥ 0`: note `l[-0:]` is `l[0:]`, the whole
list. -/
def pyLastSlice {α : Type} (k : Nat) (l : List α) : List α :=
  if k = 0 then l else l.drop (l.length - k)

/-- `argsorted[-top_k:][::-1]`: the retrieval index list computed from a
given argsort output. -/
def retrieveIdxGiven (arg : List Nat) (top_k : Nat) : List Nat :=
  (pyLastSlice top_k arg).reverse

/-- The tail of `retrieve_chunks` after the `argsort` call: slice,
reverse, and the `[docs[i] for i in top_idx]` gather (every produced
index is in range, so the `filterMap` never drops). -/
def retrieve_given_argsort {α : Type} (docs : List α) (arg : List Nat)
    (top_k : Nat) : List α :=
  (retrieveIdxGiven arg top_k).filterMap (fun i => docs[i]?)

/-- `sim.argsort()[-top_k:][::-1]` in the small-array regime. -/
def retrieveIdx (sim : List Int) (top_k : Nat) : List Nat :=
  retrieveIdxGiven (argsortStable sim) top_k

/-- `retrieve_chunks` (lines 39-43) in the small-array regime (used for
the concrete counterexample; general theorems quantify over
`isArgsortOf`). -/
def retrieve_chunks {α : Type} (docs : List α) (sim : List Int) (top_k : Nat) :
    List α :=
  retrieve_given_argsort docs (argsortStable sim) top_k

/-! ## `candidate_ranker.evaluate_candidate` and `rank_candidates`

`get_client()` is called before the `try` block: a missing `AI_API_KEY`
raises out of `evaluate_candidate` (the `apiKeySet` flag).  The
`generate_content` call is external; its outcome is a parameter.  The
prompt built from the candidate and the job description only feeds that
external call, so the job description does not otherwise appear in the
data flow. -/

/-- The six fields written by the evaluation stage. -/
def scoringKeys : List String :=
  ["score", "match_percentage", "summary", "strengths", "gaps", "recommendation"]

/-- The deterministic fallback of `evaluate_candidate` (lines 85-93). -/
def fallbackEval (candidate : Record) : Record :=
  pyMerge candidate
    [("score", (pyGet candidate "preliminary_score").getD (Json.num "50")),
     ("match_percentage", Json.num "50"),
     ("summary", Json.str "Unable to generate detailed assessment"),
     ("strengths", Json.arr [Json.str "Evaluation pending"]),
     ("gaps", Json.arr []),
     ("recommendation", Json.str "moderate_fit")]

/-- The body of `evaluate_candidate`'s `try`/`except` (lines 55-93): on a
successful call whose response yields a JSON object, merge it over the
candidate; every failure (service error, no JSON span, parse error, or a
non-dict value, which would make the `{**candidate, **evaluation}` merge
raise inside the `try`) takes the fallback. -/
def evalResult (candidate : Record) (callOutcome : Except Unit (List Char)) : Record :=
  match callOutcome with
  | Except.error _ => fallbackEval candidate
  | Except.ok text =>
    match ranker_extract_json text with
    | some (Json.obj kvs) => pyMerge candidate kvs
    | _ => fallbackEval candidate

/-- `evaluate_candidate` (lines 17-93): `get_client()` may raise before
the `try` block; afterwards no error escapes. -/
def evaluate_candidate (apiKeySet : Bool) (candidate : Record) (jd : List Char)
    (callOutcome : Except Unit (List Char)) : Except Unit Record :=
  if apiKeySet then Except.ok (evalResult candidate callOutcome)
  else Except.error ()

/-- Decimal-integer value of a digit token. -/
def digitsToNatAux : List Char → Nat → Option Nat
  | [], acc => some acc
  | c :: cs, acc =>
    if c.isDigit then digitsToNatAux cs (acc * 10 + (c.toNat - 48)) else none

/-- Integer value of a JSON number token, when it is a plain integer
numeral.  Float tokens have no integer value here: float comparison is
outside the model. -/
def numLitToInt (lit : String) : Option Int :=
  match lit.data with
  | '-' :: ds => if ds.isEmpty then none
                 else (digitsToNatAux ds 0).map (fun n => -(n : Int))
  | ds => if ds.isEmpty then none
          else (digitsToNatAux ds 0).map (fun n => (n : Int))

/-- The sort key `x.get('score', 0)` (line 112). -/
def scoreVal (r : Record) : Json := (pyGet r "score").getD (Json.num "0")

def scoreInt (r : Record) : Option Int :=
  match scoreVal r with
  | Json.num lit => numLitToInt lit
  | _ => none

/-- Integer score of an evaluated record (theorems about the sort carry
the hypothesis that every score has one). -/
def scoreD (r : Record) : Int := (scoreInt r).getD 0

/-- "May precede" for the descending, stable sort
`sorted(..., key=lambda x: x.get('score', 0), reverse=True)`. -/
def rankLE (a b : Record) : Bool := decide (scoreD b ≤ scoreD a)

/-- The fan-out: `asyncio.gather` keeps task order, so the evaluated list
is index-aligned with the candidates; `oracle i` is the outcome of
candidate `i`'s `generate_content` call. -/
def evaluatedRecords (candidates : List Record)
    (oracle : Nat → Except Unit (List Char)) : List Record :=
  candidates.enum.map (fun p => evalResult p.2 (oracle p.1))

/-- `rank_candidates` (lines 97-116).  The empty list returns before any
task is created.  With the API key missing, every task's `get_client()`
raises and `gather` propagates.  The final `sorted` raises `TypeError`
on score values that are not integer numerals (mixed with the default
`0`); records whose scores are not all integer numerals (e.g. float or
all-string scores, which Python would still order) are outside the
model and mapped to the error case. -/
def rank_candidates (apiKeySet : Bool) (candidates : List Record) (jd : List Char)
    (oracle : Nat → Except Unit (List Char)) : Except Unit (List Record) :=
  if candidates.isEmpty then Except.ok []
  else if !apiKeySet then Except.error ()
  else
    let evaluated := evaluatedRecords candidates oracle
    if evaluated.all (fun r => (scoreInt r).isSome) then
      Except.ok (insertionSort rankLE evaluated)
    else Except.error ()

/-! ## Concrete inputs used by witnesses and counterexamples -/

/-- `\x7b"score": 80\x7d` etc. -/
def mkScoreText (lit : String) : List Char := ("\x7b\"score\": " ++ lit ++ "\x7d").data

def exCandA : Record := [("name", Json.str "A")]
def exCandB : Record := [("name", Json.str "B")]
def exCandC : Record := [("name", Json.str "C")]

/-- Service outcomes scoring A and B 80 and C 90. -/
def exOracle : Nat → Except Unit (List Char) := fun i =>
  Except.ok (if i = 0 then mkScoreText "80"
             else if i = 1 then mkScoreText "80" else mkScoreText "90")

def exEvalA : Record := [("name", Json.str "A"), ("score", Json.num "80")]
def exEvalB : Record := [("name", Json.str "B"), ("score", Json.num "80")]
def exEvalC : Record := [("name", Json.str "C"), ("score", Json.num "90")]

/-- A candidate with a preliminary score, for the fallback witness. -/
def exCandPre : Record :=
  [("name", Json.str "Alice"), ("preliminary_score", Json.num "70")]

/-- Response whose evaluation object clobbers the extracted `name`. -/
def exClobberText : List Char := "\x7b\"name\": \"Bob\", \"score\": 90\x7d".data

/-- Response whose span parses only after trailing-comma repair. -/
def exTrailingText : List Char := "\x7b\"score\": 1,\x7d".data

/-- Response whose span parses as-is (repair is the identity on it). -/
def exCleanText : List Char := "\x7b\"a\": 1\x7d".data

/-- Fenced response with a trailing comma. -/
def exFencedText : List Char := "```json \x7b\"a\": 1,\x7d ```".data

/-- Extraction response that is itself an error object carrying a
`preliminary_score` field. -/
def exErrKeyText : List Char := "\x7b\"error\": \"x\", \"preliminary_score\": 7\x7d".data

/-- Extraction response with three skills. -/
def exSkillsText : List Char :=
  "\x7b\"name\": \"Z\", \"skills\": [\"a\", \"b\", \"c\"]\x7d".data

/-- Text whose brace span is valid JSON containing `,\x7d` inside a string
literal. -/
def exStrCommaText : List Char := "\x7b\"a\": \",\x7d\"\x7d".data

/-! ## Lemmas: Python dict operations -/

theorem pyGet_dictInsert_same (r : Record) (k : String) (v : Json) :
    pyGet (dictInsert r k v) k = some v := by
  induction r with
  | nil => simp [dictInsert, pyGet]
  | cons p rest ih =>
    rcases p with ⟨k2, w⟩
    by_cases h2 : k2 = k
    · simp [dictInsert, pyGet, h2]
    · simp only [dictInsert, if_neg h2, pyGet, h2, if_false]
      exact ih

theorem pyGet_dictInsert_ne (r : Record) (k k2 : String) (v : Json)
    (hne : k2 ≠ k) : pyGet (dictInsert r k v) k2 = pyGet r k2 := by
  induction r with
  | nil =>
    have h0 : ¬ k = k2 := fun h => hne h.symm
    simp [dictInsert, pyGet, h0]
  | cons p rest ih =>
    rcases p with ⟨k3, w⟩
    by_cases h3 : k3 = k
    · subst h3
      have hk2 : ¬ k3 = k2 := fun h => hne h.symm
      simp [dictInsert, pyGet, hk2]
    · by_cases h4 : k3 = k2
      · subst h4
        simp [dictInsert, h3, pyGet]
      · simp only [dictInsert, if_neg h3, pyGet, h4, if_false]
        exact ih

theorem hasKey_dictInsert_of (r : Record) (k k2 : String) (v : Json)
    (h : hasKey r k2 = true) : hasKey (dictInsert r k v) k2 = true := by
  by_cases hk : k2 = k
  · subst hk
    simp [hasKey, pyGet_dictInsert_same]
  · simpa [hasKey, pyGet_dictInsert_ne r k k2 v hk] using h

theorem pyGet_pyMerge (r s : Record) (k : String) :
    pyGet (pyMerge r s) k =
      match lastVal s k with
      | some w => some w
      | none => pyGet r k := by
  induction s generalizing r with
  | nil => simp [pyMerge, lastVal]
  | cons p s2 ih =>
    rcases p with ⟨k2, v⟩
    have hstep : pyMerge r ((k2, v) :: s2) = pyMerge (dictInsert r k2 v) s2 := rfl
    rw [hstep, ih]
    show _ = (match lastVal ((k2, v) :: s2) k with
      | some w => some w
      | none => pyGet r k)
    rcases h2 : lastVal s2 k with _ | w
    · simp only [lastVal, h2]
      by_cases hk : k2 = k
      · subst hk
        simp [pyGet_dictInsert_same]
      · simp [hk, pyGet_dictInsert_ne r k2 k v (fun h => hk h.symm)]
    · simp [lastVal, h2]

theorem lastVal_eq_none (s : Record) (k : String)
    (h : ∀ p ∈ s, p.1 ≠ k) : lastVal s k = none := by
  induction s with
  | nil => rfl
  | cons p s2 ih =>
    rcases p with ⟨k2, v⟩
    have h2 : k2 ≠ k := h (k2, v) (List.mem_cons_self _ _)
    simp only [lastVal, ih (fun q hq => h q (List.mem_cons_of_mem _ hq)), h2, if_false]

theorem pyGet_pyMerge_not_mem (r s : Record) (k : String)
    (h : ∀ p ∈ s, p.1 ≠ k) : pyGet (pyMerge r s) k = pyGet r k := by
  rw [pyGet_pyMerge, lastVal_eq_none s k h]

theorem hasKey_pyMerge_left (r s : Record) (k : String)
    (h : hasKey r k = true) : hasKey (pyMerge r s) k = true := by
  rw [hasKey, pyGet_pyMerge]
  rcases h2 : lastVal s k with _ | w
  · simpa [hasKey] using h
  · rfl

/-! ## Lemmas: stable insertion sort -/

theorem insertLe_perm {α : Type} (le : α → α → Bool) (x : α) (l : List α) :
    List.Perm (insertLe le x l) (x :: l) := by
  induction l with
  | nil => rfl
  | cons y ys ih =>
    by_cases h : le x y
    · simp [insertLe, h]
    · simp only [insertLe, h, if_false]
      exact (ih.cons y).trans (List.Perm.swap x y ys)

theorem insertionSort_perm {α : Type} (le : α → α → Bool) (l : List α) :
    List.Perm (insertionSort le l) l := by
  induction l with
  | nil => rfl
  | cons x xs ih =>
    exact (insertLe_perm le x (insertionSort le xs)).trans (ih.cons x)

theorem length_insertionSort {α : Type} (le : α → α → Bool) (l : List α) :
    (insertionSort le l).length = l.length :=
  (insertionSort_perm le l).length_eq

theorem mem_insertLe {α : Type} {le : α → α → Bool} {x z : α} {l : List α} :
    z ∈ insertLe le x l ↔ z = x ∨ z ∈ l := by
  rw [(insertLe_perm le x l).mem_iff]
  simp

theorem pairwise_insertLe {α : Type} {le : α → α → Bool}
    (trans : ∀ a b c, le a b = true → le b c = true → le a c = true)
    (total : ∀ a b, le a b || le b a) {x : α} {l : List α}
    (hl : l.Pairwise (fun a b => le a b = true)) :
    (insertLe le x l).Pairwise (fun a b => le a b = true) := by
  induction l with
  | nil => simp [insertLe]
  | cons y ys ih =>
    rcases List.pairwise_cons.mp hl with ⟨hy, hys⟩
    by_cases h : le x y
    · simp only [insertLe, h, if_true]
      refine List.Pairwise.cons ?_ hl
      intro z hz
      rcases List.mem_cons.mp hz with hzy | hzys
      · subst hzy; exact h
      · exact trans x y z h (hy z hzys)
    · simp only [insertLe, h, if_false]
      refine List.Pairwise.cons ?_ (ih hys)
      intro z hz
      rcases mem_insertLe.mp hz with hzx | hzys
      · rw [hzx]
        have htot := total x y
        simp only [Bool.or_eq_true] at htot
        rcases htot with h1 | h1
        · exact absurd h1 h
        · exact h1
      · exact hy z hzys

theorem pairwise_insertionSort {α : Type} {le : α → α → Bool}
    (trans : ∀ a b c, le a b = true → le b c = true → le a c = true)
    (total : ∀ a b, le a b || le b a) (l : List α) :
    (insertionSort le l).Pairwise (fun a b => le a b = true) := by
  induction l with
  | nil => simp [insertionSort]
  | cons x xs ih => exact pairwise_insertLe trans total ih

theorem sublist_insertLe {α : Type} (le : α → α → Bool) (x : α) (l : List α) :
    List.Sublist l (insertLe le x l) := by
  induction l with
  | nil => simp [insertLe]
  | cons y ys ih =>
    by_cases h : le x y
    · simp only [insertLe, h, if_true]
      exact (List.sublist_cons_self x (y :: ys))
    · simp only [insertLe, h, if_false]
      exact ih.cons₂ y

theorem pair_sublist_insertLe {α : Type} {le : α → α → Bool} {x b : α}
    {l : List α} (hb : b ∈ l) (hxb : le x b = true) :
    List.Sublist [x, b] (insertLe le x l) := by
  induction l with
  | nil => cases hb
  | cons y ys ih =>
    by_cases h : le x y
    · simp only [insertLe, h, if_true]
      exact (List.singleton_sublist.mpr hb).cons₂ x
    · simp only [insertLe, h, if_false]
      rcases List.mem_cons.mp hb with hby | hbys
      · subst hby
        exact absurd hxb h
      · exact (ih hbys).cons y

theorem pair_sublist_insertionSort {α : Type} {le : α → α → Bool} {a b : α}
    {l : List α} (hab : le a b = true)
    (h : List.Sublist [a, b] l) :
    List.Sublist [a, b] (insertionSort le l) := by
  induction l with
  | nil => cases h
  | cons x xs ih =>
    cases h with
    | cons _ h2 =>
      exact (ih h2).trans (sublist_insertLe le x (insertionSort le xs))
    | cons₂ _ h2 =>
      have hb : b ∈ insertionSort le xs :=
        (insertionSort_perm le xs).mem_iff.mpr (List.singleton_sublist.mp h2)
      exact pair_sublist_insertLe hb hab

/-! ## Lemmas: every selected span starts with a brace and parses to an
object -/

theorem attemptFenced_head {s g : List Char} (h : attemptFenced s = some g) :
    ∃ r, g = '{' :: r := by
  unfold attemptFenced at h
  split at h
  · cases h
  · split at h
    · rcases h4 : fencedBody _ with _ | b <;> rw [h4] at h
      · cases h
      · simp only [Option.map_some', Option.some.injEq] at h
        exact ⟨_, h.symm⟩
    · cases h

theorem findFenced_head {t g : List Char} (h : findFenced t = some g) :
    ∃ r, g = '{' :: r := by
  induction t with
  | nil => cases h
  | cons c rest ih =>
    unfold findFenced at h
    rcases h1 : attemptFenced (c :: rest) with _ | g2 <;> rw [h1] at h
    · exact ih h
    · cases h
      exact attemptFenced_head h1

theorem braceSpan_head {t g : List Char} (h : braceSpan t = some g) :
    ∃ r, g = '{' :: r := by
  unfold braceSpan at h
  split at h
  · cases h
  · split at h
    · cases h
    · simp only [Option.some.injEq] at h
      exact ⟨_, h.symm⟩

theorem selectJsonSpan_head {t g : List Char} (h : selectJsonSpan t = some g) :
    ∃ r, g = '{' :: r := by
  unfold selectJsonSpan at h
  split at h
  · rename_i g2 hg2
    cases h
    exact findFenced_head hg2
  · exact braceSpan_head h

theorem subCommaCloseF_cons_ne (close c : Char) (fuel : Nat) (r : List Char)
    (hc : ¬ c = ',') :
    subCommaCloseF close (fuel + 1) (c :: r) = c :: subCommaCloseF close fuel r := by
  simp [subCommaCloseF, hc]

theorem subCommaClose_cons_ne (close c : Char) (r : List Char) (hc : ¬ c = ',') :
    subCommaClose close (c :: r) = c :: subCommaClose close r := by
  unfold subCommaClose
  simp only [List.length_cons]
  exact subCommaCloseF_cons_ne close c r.length r hc

theorem jsonRepair_head (r : List Char) :
    jsonRepair ('{' :: r) = '{' :: jsonRepair r := by
  unfold jsonRepair
  rw [subCommaClose_cons_ne '}' '{' r (by decide),
      subCommaClose_cons_ne ']' '{' _ (by decide)]

theorem parseMembers_isObj :
    ∀ (fuel : Nat) (s : List Char) (first : Bool) (acc : List (String × Json))
      (v : Json) (r : List Char),
      parseMembers fuel s first acc = some (v, r) → ∃ kvs, v = Json.obj kvs := by
  intro fuel
  induction fuel with
  | zero => intro s first acc v r h; cases h
  | succ fuel ih =>
    intro s first acc v r h
    unfold parseMembers at h
    split at h
    next =>
      split at h
      · cases h; exact ⟨_, rfl⟩
      · cases h
    next =>
      split at h
      · cases h
      next key r2 hkey =>
        split at h
        next r3 hcolon =>
          split at h
          · cases h
          next v4 r4 hval =>
            split at h
            · exact ih _ _ _ _ _ h
            · cases h; exact ⟨_, rfl⟩
            · cases h
        next => cases h
    next => cases h

theorem parseValue_brace (fuel : Nat) (s r : List Char)
    (h : skipJsonWs s = '{' :: r) :
    parseValue (fuel + 1) s = parseMembers fuel r true [] := by
  unfold parseValue
  rw [h]
  rfl

theorem json_loads_isObj {s r : List Char} {v : Json}
    (hs : s = '{' :: r) (h : json_loads s = some v) : ∃ kvs, v = Json.obj kvs := by
  unfold json_loads at h
  rcases h1 : parseValue (s.length + 1) s with _ | p <;> rw [h1] at h
  · cases h
  · rcases p with ⟨v2, rest⟩
    have hskip : skipJsonWs s = '{' :: r := by
      rw [hs]
      unfold skipJsonWs
      rw [List.dropWhile_cons_of_neg (by decide)]
    rw [parseValue_brace s.length s r hskip] at h1
    have h2 : (if (skipJsonWs rest).isEmpty = true then some v2 else none)
        = some v := h
    by_cases hemp : (skipJsonWs rest).isEmpty = true
    · rw [if_pos hemp] at h2
      cases h2
      exact parseMembers_isObj _ _ _ _ _ _ h1
    · rw [if_neg hemp] at h2
      cases h2

theorem extract_json_isObj {t : List Char} {v : Json}
    (h : extract_json t = some v) : ∃ kvs, v = Json.obj kvs := by
  unfold extract_json at h
  rcases h1 : selectJsonSpan t with _ | g <;> rw [h1] at h
  · cases h
  · rcases selectJsonSpan_head h1 with ⟨r, hr⟩
    subst hr
    exact json_loads_isObj (jsonRepair_head r) h

/-! ## Claim theorems -/

/-- C1: for every candidate record and job description, when the
generative-service call or the response parsing fails,
`evaluate_candidate` never propagates the error (it returns `ok`) and
returns the candidate merged with the deterministic fallback: `score` is
the candidate's `preliminary_score` if present else `50`,
`match_percentage` is `50`, `summary` is
"Unable to generate detailed assessment", `strengths` is
`["Evaluation pending"]`, `gaps` is `[]`, `recommendation` is
"moderate_fit", and every non-scoring field keeps its original value. -/
theorem evaluate_candidate_fallback (c : Record) (jd : List Char)
    (out : Except Unit (List Char))
    (hfail : out = Except.error ()
      ∨ ∃ t, out = Except.ok t ∧ ranker_extract_json t = none) :
    evaluate_candidate true c jd out = Except.ok (fallbackEval c)
    ∧ pyGet (fallbackEval c) "score"
        = some ((pyGet c "preliminary_score").getD (Json.num "50"))
    ∧ pyGet (fallbackEval c) "match_percentage" = some (Json.num "50")
    ∧ pyGet (fallbackEval c) "summary"
        = some (Json.str "Unable to generate detailed assessment")
    ∧ pyGet (fallbackEval c) "strengths"
        = some (Json.arr [Json.str "Evaluation pending"])
    ∧ pyGet (fallbackEval c) "gaps" = some (Json.arr [])
    ∧ pyGet (fallbackEval c) "recommendation" = some (Json.str "moderate_fit")
    ∧ ∀ k, ¬ k ∈ scoringKeys → pyGet (fallbackEval c) k = pyGet c k := by
  refine ⟨?_, ?_, ?_, ?_, ?_, ?_, ?_, ?_⟩
  · rcases hfail with he | ⟨t, hot, hrex⟩
    · subst he; rfl
    · subst hot
      simp [evaluate_candidate, evalResult, hrex]
  · unfold fallbackEval
    rw [pyGet_pyMerge]
    simp [lastVal]
  · unfold fallbackEval
    rw [pyGet_pyMerge]
    simp [lastVal]
  · unfold fallbackEval
    rw [pyGet_pyMerge]
    simp [lastVal]
  · unfold fallbackEval
    rw [pyGet_pyMerge]
    simp [lastVal]
  · unfold fallbackEval
    rw [pyGet_pyMerge]
    simp [lastVal]
  · unfold fallbackEval
    rw [pyGet_pyMerge]
    simp [lastVal]
  · intro k hk
    unfold fallbackEval
    apply pyGet_pyMerge_not_mem
    intro p hp
    simp only [List.mem_cons, List.not_mem_nil, or_false] at hp
    rcases hp with h|h|h|h|h|h <;> subst h <;>
      (intro hc; apply hk; rw [← hc]; simp [scoringKeys])

/-- C1 witness: a concrete candidate with `preliminary_score` 70 whose
service call errors gets the fallback record with `score` 70. -/
theorem evaluate_candidate_fallback_witness :
    evaluate_candidate true exCandPre [] (Except.error ())
        = Except.ok (fallbackEval exCandPre)
    ∧ pyGet (fallbackEval exCandPre) "score" = some (Json.num "70") := by
  have h := evaluate_candidate_fallback exCandPre [] (Except.error ()) (Or.inl rfl)
  exact ⟨h.1, h.2.1⟩

/-- C3: whenever `rank_candidates` returns a list, it has exactly the
length of the input candidate list (no candidate is dropped at
evaluation time), and the empty input yields the empty output. -/
theorem rank_candidates_length (ak : Bool) (cs : List Record) (jd : List Char)
    (oracle : Nat → Except Unit (List Char)) (out : List Record)
    (h : rank_candidates ak cs jd oracle = Except.ok out) :
    out.length = cs.length ∧ (cs = [] → out = []) := by
  unfold rank_candidates at h
  by_cases hcs : cs.isEmpty
  · rw [if_pos hcs] at h
    cases h
    have he : cs = [] := List.isEmpty_iff.mp hcs
    subst he
    exact ⟨rfl, fun _ => rfl⟩
  · rw [if_neg hcs] at h
    by_cases hak : (!ak) = true
    · rw [if_pos hak] at h
      cases h
    · rw [if_neg hak] at h
      have h2 : (if (evaluatedRecords cs oracle).all (fun r => (scoreInt r).isSome)
          then Except.ok (insertionSort rankLE (evaluatedRecords cs oracle))
          else (Except.error () : Except Unit (List Record))) = Except.ok out := h
      by_cases hall : (evaluatedRecords cs oracle).all (fun r => (scoreInt r).isSome) = true
      · rw [if_pos hall] at h2
        cases h2
        constructor
        · rw [length_insertionSort]
          simp [evaluatedRecords]
        · intro he
          exact absurd (by rw [he]; rfl) hcs
      · rw [if_neg hall] at h2
        cases h2

/-- C3 witness: the three-candidate run returns a three-element list. -/
theorem rank_candidates_length_witness :
    ([exEvalC, exEvalA, exEvalB] : List Record).length
      = ([exCandA, exCandB, exCandC] : List Record).length :=
  (rank_candidates_length true [exCandA, exCandB, exCandC] [] exOracle
    [exEvalC, exEvalA, exEvalB] rfl).1

/-- C2: whenever `rank_candidates` returns a list, it is a permutation of
the evaluated candidate records, sorted by non-increasing score, and any
two records with equal score keep the relative order their candidates
had in the input (stability). -/
theorem rank_candidates_sorted_stable (cs : List Record) (jd : List Char)
    (oracle : Nat → Except Unit (List Char)) (out : List Record)
    (h : rank_candidates true cs jd oracle = Except.ok out) :
    List.Perm out (evaluatedRecords cs oracle)
    ∧ out.Pairwise (fun a b => scoreD b ≤ scoreD a)
    ∧ ∀ a b, List.Sublist [a, b] (evaluatedRecords cs oracle) →
        scoreD a = scoreD b → List.Sublist [a, b] out := by
  have htrans : ∀ a b c : Record,
      rankLE a b = true → rankLE b c = true → rankLE a c = true := by
    intro a b c hab hbc
    simp only [rankLE, decide_eq_true_eq] at hab hbc ⊢
    omega
  have htotal : ∀ a b : Record, rankLE a b || rankLE b a := by
    intro a b
    simp only [rankLE, Bool.or_eq_true, decide_eq_true_eq]
    omega
  unfold rank_candidates at h
  by_cases hcs : cs.isEmpty
  · rw [if_pos hcs] at h
    cases h
    have he : cs = [] := List.isEmpty_iff.mp hcs
    subst he
    refine ⟨List.Perm.refl _, List.Pairwise.nil, ?_⟩
    intro a b hab heq
    rw [show evaluatedRecords [] oracle = [] from rfl] at hab
    cases hab
  · rw [if_neg hcs, if_neg (by simp)] at h
    have h2 : (if (evaluatedRecords cs oracle).all (fun r => (scoreInt r).isSome)
        then Except.ok (insertionSort rankLE (evaluatedRecords cs oracle))
        else (Except.error () : Except Unit (List Record))) = Except.ok out := h
    by_cases hall : (evaluatedRecords cs oracle).all
        (fun r => (scoreInt r).isSome) = true
    · rw [if_pos hall] at h2
      cases h2
      refine ⟨insertionSort_perm _ _, ?_, ?_⟩
      · exact (pairwise_insertionSort htrans htotal _).imp
          (fun hle => by simpa [rankLE] using hle)
      · intro a b hab heq
        exact pair_sublist_insertionSort
          (by simp only [rankLE, decide_eq_true_eq]; omega) hab
    · rw [if_neg hall] at h2
      cases h2

/-- C2 witness: candidates scored 80, 80, 90 (in that input order) rank
as C, A, B — descending scores, with the tied pair A, B in input
order — and the output is a permutation of the evaluated records. -/
theorem rank_candidates_sorted_stable_witness :
    rank_candidates true [exCandA, exCandB, exCandC] [] exOracle
      = Except.ok [exEvalC, exEvalA, exEvalB]
    ∧ List.Perm [exEvalC, exEvalA, exEvalB]
        (evaluatedRecords [exCandA, exCandB, exCandC] exOracle) :=
  ⟨rfl, (rank_candidates_sorted_stable [exCandA, exCandB, exCandC] [] exOracle
    [exEvalC, exEvalA, exEvalB] rfl).1⟩

/-- Helper: the fallback writes only the six scoring keys. -/
theorem pyGet_fallback_of_not_scoring (c : Record) (k : String)
    (hk : ¬ k ∈ scoringKeys) : pyGet (fallbackEval c) k = pyGet c k := by
  unfold fallbackEval
  apply pyGet_pyMerge_not_mem
  intro p hp
  simp only [List.mem_cons, List.not_mem_nil, or_false] at hp
  rcases hp with h|h|h|h|h|h <;> subst h <;>
    (intro hc; apply hk; rw [← hc]; simp [scoringKeys])

/-- C6: `extract_json` tries the recovery steps in order — fenced block
first, else the greedy brace span — strips trailing commas before
parsing, succeeds on every input whose selected span parses once the
trailing commas are stripped, and errors when no JSON-shaped span
exists. -/
theorem extract_json_protocol (t s : List Char) (v : Json) :
    (findFenced t = some s → extract_json t = json_loads (jsonRepair s))
    ∧ (findFenced t = none → braceSpan t = some s →
        extract_json t = json_loads (jsonRepair s))
    ∧ (selectJsonSpan t = some s → json_loads (jsonRepair s) = some v →
        extract_json t = some v)
    ∧ (selectJsonSpan t = none → extract_json t = none) := by
  refine ⟨?_, ?_, ?_, ?_⟩
  · intro hf
    unfold extract_json selectJsonSpan
    rw [hf]
  · intro hf hb
    unfold extract_json selectJsonSpan
    rw [hf, hb]
  · intro hs hv
    unfold extract_json
    rw [hs]
    exact hv
  · intro hs
    unfold extract_json
    rw [hs]

/-- C6 witness: a fenced response with a trailing comma parses to the
repaired object. -/
theorem extract_json_protocol_witness :
    extract_json exFencedText = some (Json.obj [("a", Json.num "1")]) :=
  (extract_json_protocol exFencedText ("\x7b\"a\": 1,\x7d".data)
    (Json.obj [("a", Json.num "1")])).2.2.1 rfl rfl

/-- C5 counterexample: on `\x7b"score": 1,\x7d` the Extractor's
`extract_json` succeeds (it strips the trailing comma) while the
recovery step inside `evaluate_candidate` fails — the two do not compute
the same parsed result, because the latter has no trailing-comma
stripping step. -/
theorem ranker_recovery_ne_extract_json :
    extract_json exTrailingText = some (Json.obj [("score", Json.num "1")])
    ∧ ranker_extract_json exTrailingText = none
    ∧ (some (Json.obj [("score", Json.num "1")]) : Option Json) ≠ none :=
  ⟨rfl, rfl, by simp⟩

/-- C5 amended: the recovery step inside `evaluate_candidate` selects
the same span as `extract_json` but omits the trailing-comma repair: the
two fail together when no span exists, and agree on every input whose
selected span the repair leaves unchanged. -/
theorem ranker_recovery_refines (t s : List Char) :
    (selectJsonSpan t = none →
      extract_json t = none ∧ ranker_extract_json t = none)
    ∧ (selectJsonSpan t = some s → jsonRepair s = s →
        ranker_extract_json t = extract_json t) := by
  constructor
  · intro hs
    unfold extract_json ranker_extract_json
    rw [hs]
    exact ⟨rfl, rfl⟩
  · intro hs hrep
    unfold extract_json ranker_extract_json
    rw [hs]
    show json_loads s = json_loads (jsonRepair s)
    rw [hrep]

/-- C5 amended witness: both recoveries agree on a span needing no
repair. -/
theorem ranker_recovery_refines_witness :
    ranker_extract_json exCleanText = extract_json exCleanText :=
  (ranker_recovery_refines exCleanText exCleanText).2 rfl rfl

/-- C10: a response text whose first brace span is well-formed JSON
containing the character sequence `,\x7d` inside a string value:
`extract_json` succeeds, but the trailing-comma substitution applied
textually inside the string literal makes its value differ from the
standard JSON parse of the same span. -/
theorem extract_json_corrupts_string_values :
    braceSpan exStrCommaText = some exStrCommaText
    ∧ json_loads exStrCommaText = some (Json.obj [("a", Json.str ",\x7d")])
    ∧ extract_json exStrCommaText = some (Json.obj [("a", Json.str "\x7d")])
    ∧ Json.str ",\x7d" ≠ Json.str "\x7d" :=
  ⟨rfl, rfl, rfl, by simp⟩

/-- C7: on every successful extraction (no error key, skills a list or
absent), `parse_resume` attaches `preliminary_score = min(10*numberOfSkills, 100)`,
a value between 0 and 100, equal to 0 when the skills list is absent or
empty (an absent `skills` key makes `l = []` by the `getD` default). -/
theorem parse_resume_preliminary_score (callOut : Except String (List Char))
    (c : Record) (l : List Json)
    (hc : generate_candidate_info callOut = c)
    (herr : hasKey c "error" = false)
    (hsk : (pyGet c "skills").getD (Json.arr []) = Json.arr l) :
    parse_resume none callOut
      = dictInsert c "preliminary_score"
          (Json.num (Nat.repr (min (10 * l.length) 100)))
    ∧ pyGet (parse_resume none callOut) "preliminary_score"
      = some (Json.num (Nat.repr (min (10 * l.length) 100)))
    ∧ 0 ≤ min (10 * l.length) 100
    ∧ min (10 * l.length) 100 ≤ 100
    ∧ (pyGet c "skills" = none → l = [])
    ∧ (l = [] → min (10 * l.length) 100 = 0) := by
  have hmain : parse_resume none callOut
      = dictInsert c "preliminary_score"
          (Json.num (Nat.repr (min (10 * l.length) 100))) := by
    unfold parse_resume
    rw [hc]
    rw [if_neg (by rw [herr]; exact Bool.false_ne_true)]
    rw [hsk]
    show dictInsert c "preliminary_score"
        (Json.num (Nat.repr (min (l.length * 10) 100))) = _
    rw [Nat.mul_comm]
  refine ⟨hmain, ?_, Nat.zero_le _, Nat.min_le_right _ _, ?_, ?_⟩
  · rw [hmain]
    exact pyGet_dictInsert_same _ _ _
  · intro habs
    rw [habs] at hsk
    simpa using hsk.symm
  · intro hl
    subst hl
    rfl

/-- C7 witness: a record with three skills gets preliminary score 30. -/
theorem parse_resume_preliminary_score_witness :
    pyGet (parse_resume none (Except.ok exSkillsText)) "preliminary_score"
      = some (Json.num "30") :=
  (parse_resume_preliminary_score (Except.ok exSkillsText)
    [("name", Json.str "Z"),
     ("skills", Json.arr [Json.str "a", Json.str "b", Json.str "c"])]
    [Json.str "a", Json.str "b", Json.str "c"] rfl rfl rfl).2.1

/-- C8 counterexample: a parsed evaluation object containing `name`
overwrites the extracted `name` — the original field value does not
survive, refuting "every original extracted field keeps its original
value" on the success path. -/
theorem evaluate_candidate_clobbers_name :
    evaluate_candidate true [("name", Json.str "Alice")] [] (Except.ok exClobberText)
      = Except.ok [("name", Json.str "Bob"), ("score", Json.num "90")]
    ∧ pyGet [("name", Json.str "Bob"), ("score", Json.num "90")] "name"
        ≠ pyGet [("name", Json.str "Alice")] "name" := by
  refine ⟨rfl, ?_⟩
  simp [pyGet]

/-- Helper: the two branches of `evalResult`. -/
theorem evalResult_ok_eq (c : Record) (t : List Char) :
    evalResult c (Except.ok t) =
      (match ranker_extract_json t with
       | some (Json.obj kvs) => pyMerge c kvs
       | _ => fallbackEval c) := rfl

/-- Helper: `fallbackEval` is a merge, so it keeps every key. -/
theorem hasKey_fallbackEval (c : Record) (k : String)
    (hk : hasKey c k = true) : hasKey (fallbackEval c) k = true :=
  hasKey_pyMerge_left _ _ _ hk

/-- C8 amended: evaluation never removes a key; every field outside the
parsed evaluation's own keys (success path), and every non-scoring
field (fallback path), keeps its original value.  A field named in the
parsed evaluation object is overwritten with the response's value, even
when it is an extraction field such as `name`. -/
theorem evaluate_candidate_preserves_fields (c : Record) (jd : List Char)
    (out : Except Unit (List Char)) (r : Record)
    (h : evaluate_candidate true c jd out = Except.ok r) :
    (∀ k, hasKey c k = true → hasKey r k = true)
    ∧ (∀ t kvs, out = Except.ok t →
        ranker_extract_json t = some (Json.obj kvs) →
        ∀ k, (∀ p ∈ kvs, p.1 ≠ k) → pyGet r k = pyGet c k)
    ∧ ((out = Except.error ()
        ∨ ∃ t, out = Except.ok t ∧ ranker_extract_json t = none) →
        ∀ k, ¬ k ∈ scoringKeys → pyGet r k = pyGet c k) := by
  have hr : evalResult c out = r := by
    have h2 : (Except.ok (evalResult c out) : Except Unit Record) = Except.ok r := h
    exact Except.ok.inj h2
  refine ⟨?_, ?_, ?_⟩
  · intro k hk
    rw [← hr]
    rcases out with _ | t
    · exact hasKey_fallbackEval c k hk
    · rw [evalResult_ok_eq]
      rcases hrex : ranker_extract_json t with _ | v
      · exact hasKey_fallbackEval c k hk
      · rcases v with _ | _ | _ | _ | _ | kvs
        · exact hasKey_fallbackEval c k hk
        · exact hasKey_fallbackEval c k hk
        · exact hasKey_fallbackEval c k hk
        · exact hasKey_fallbackEval c k hk
        · exact hasKey_fallbackEval c k hk
        · exact hasKey_pyMerge_left _ _ _ hk
  · intro t kvs hot hrex k hnk
    subst hot
    rw [← hr, evalResult_ok_eq, hrex]
    exact pyGet_pyMerge_not_mem _ _ _ hnk
  · intro hfail k hk
    rw [← hr]
    rcases hfail with he | ⟨t, hot, hrex⟩
    · subst he
      exact pyGet_fallback_of_not_scoring c k hk
    · subst hot
      rw [evalResult_ok_eq, hrex]
      exact pyGet_fallback_of_not_scoring c k hk

/-- C8 amended witness: a field outside the evaluation object
(`preliminary_score`) keeps its value through the merge. -/
theorem evaluate_candidate_preserves_fields_witness :
    pyGet [("name", Json.str "Bob"), ("preliminary_score", Json.num "70"),
           ("score", Json.num "90")] "preliminary_score"
      = pyGet exCandPre "preliminary_score" :=
  (evaluate_candidate_preserves_fields exCandPre [] (Except.ok exClobberText)
      [("name", Json.str "Bob"), ("preliminary_score", Json.num "70"),
       ("score", Json.num "90")] rfl).2.1
    exClobberText [("name", Json.str "Bob"), ("score", Json.num "90")] rfl rfl
    "preliminary_score" (by decide)

/-- C9 counterexample: an extraction response that is itself an error
object carrying a `preliminary_score` field is returned as-is — the
failure result contains `error` *and* `preliminary_score`, refuting
"every failure path yields a mapping containing error and no
preliminary_score". -/
theorem parse_resume_error_with_preliminary :
    parse_resume none (Except.ok exErrKeyText)
      = [("error", Json.str "x"), ("preliminary_score", Json.num "7")]
    ∧ hasKey (parse_resume none (Except.ok exErrKeyText)) "error" = true
    ∧ hasKey (parse_resume none (Except.ok exErrKeyText)) "preliminary_score" = true :=
  ⟨rfl, rfl, rfl⟩

/-- Helper: the shape of `parse_resume` without a preparation failure. -/
theorem parse_resume_none_eq (callOut : Except String (List Char)) :
    parse_resume none callOut =
      (if hasKey (generate_candidate_info callOut) "error" = true
       then generate_candidate_info callOut
       else
         match pyLen ((pyGet (generate_candidate_info callOut) "skills").getD
             (Json.arr [])) with
         | none => errorRecord "TypeError: object has no len()"
         | some n =>
           dictInsert (generate_candidate_info callOut) "preliminary_score"
             (Json.num (Nat.repr (min (n * 10) 100)))) := rfl

/-- C9 amended: `parse_resume` distinguishes success from failure by the
`error` key: every success carries a `preliminary_score`; an exception
before extraction yields exactly the error record; an extraction object
that itself contains `error` is returned unchanged (so no
`preliminary_score` is *added*, though one already present survives);
and the caller keeps only records without an `error` key. -/
theorem parse_resume_error_discipline (prep : Option String)
    (callOut : Except String (List Char)) :
    (hasKey (parse_resume prep callOut) "error" = false →
      hasKey (parse_resume prep callOut) "preliminary_score" = true)
    ∧ (∀ e, prep = some e → parse_resume prep callOut = errorRecord e)
    ∧ (prep = none → hasKey (generate_candidate_info callOut) "error" = true →
        parse_resume prep callOut = generate_candidate_info callOut)
    ∧ (∀ r rs, r ∈ keepParsed rs → hasKey r "error" = false) := by
  refine ⟨?_, ?_, ?_, ?_⟩
  · intro hf
    rcases prep with _ | e
    · rw [parse_resume_none_eq] at hf ⊢
      by_cases hk : hasKey (generate_candidate_info callOut) "error" = true
      · rw [if_pos hk] at hf
        rw [hk] at hf
        exact Bool.noConfusion hf
      · rw [if_neg hk] at hf ⊢
        rcases hlen : pyLen ((pyGet (generate_candidate_info callOut) "skills").getD
            (Json.arr [])) with _ | n
        · rw [hlen] at hf
          exact absurd hf (by simp [errorRecord, hasKey, pyGet])
        · simp [hasKey, pyGet_dictInsert_same]
    · exact absurd hf (by simp [parse_resume, errorRecord, hasKey, pyGet])
  · intro e he
    subst he
    rfl
  · intro hp hk
    subst hp
    rw [parse_resume_none_eq, if_pos hk]
  · intro r rs hr
    unfold keepParsed at hr
    have h2 := (List.mem_filter.mp hr).2
    simpa using h2

/-- C9 amended witness: a successful extraction's record carries a
`preliminary_score`. -/
theorem parse_resume_error_discipline_witness :
    hasKey (parse_resume none (Except.ok exSkillsText)) "preliminary_score" = true :=
  (parse_resume_error_discipline none (Except.ok exSkillsText)).1 rfl

/-- C4 counterexample (computed in the small-array regime, where
NumPy's default sort provably runs a stable insertion sort): two chunks
with identical similarity come back in *reverse* original order
(`argsort` ascending is reversed wholesale), and `top_k = 0` — which is
"at most the number of chunks" — returns every chunk because Python's
`[-0:]` slice is the whole list, not zero chunks. -/
theorem retrieve_chunks_tie_order :
    retrieve_chunks ([10, 20] : List Nat) [5, 5] 2 = [20, 10]
    ∧ retrieve_chunks ([10, 20] : List Nat) [5, 5] 2 ≠ [10, 20]
    ∧ retrieve_chunks ([10] : List Nat) [7] 0 = [10]
    ∧ retrieve_chunks ([10] : List Nat) [7] 0 ≠ [] :=
  ⟨rfl, by decide, rfl, by decide⟩

/-- Helper: an indexed gather drops nothing when every index is in
range. -/
theorem length_filterMap_index {α : Type} (docs : List α) (idx : List Nat)
    (h : ∀ i ∈ idx, i < docs.length) :
    (idx.filterMap (fun i => docs[i]?)).length = idx.length := by
  induction idx with
  | nil => rfl
  | cons i idx2 ih =>
    have hi : i < docs.length := h i (List.mem_cons_self _ _)
    rw [List.filterMap_cons, List.getElem?_eq_getElem hi]
    simp only [List.length_cons]
    rw [ih (fun i2 hi2 => h i2 (List.mem_cons_of_mem _ hi2))]

/-- Helper: an element of `sim.enum` is an in-range (index, value) pair. -/
theorem mem_enum_getD {sim : List Int} {p : Nat × Int} (hp : p ∈ sim.enum) :
    sim.getD p.1 0 = p.2 ∧ p.1 < sim.length := by
  have h2 := List.mem_enum_iff_getElem?.mp hp
  constructor
  · rw [List.getD_eq_getElem?_getD, h2]
    rfl
  · by_contra h3
    rw [List.getElem?_eq_none (Nat.le_of_not_lt h3)] at h2
    cases h2

/-- Helper: the small-array argsort model satisfies `numpy.argsort`'s
general contract (an ascending permutation of all positions). -/
theorem argsortStable_isArgsortOf (sim : List Int) :
    isArgsortOf sim (argsortStable sim) := by
  have htrans : ∀ a b c : Nat × Int,
      enumLexLe a b = true → enumLexLe b c = true → enumLexLe a c = true := by
    intro a b c hab hbc
    simp only [enumLexLe, decide_eq_true_eq] at hab hbc ⊢
    omega
  have htotal : ∀ a b : Nat × Int, enumLexLe a b || enumLexLe b a := by
    intro a b
    simp only [enumLexLe, Bool.or_eq_true, decide_eq_true_eq]
    omega
  have hperm : List.Perm (insertionSort enumLexLe sim.enum) sim.enum :=
    insertionSort_perm _ _
  constructor
  · have henumfst : sim.enum.map Prod.fst = List.range sim.length := by
      rw [show sim.enum = sim.enumFrom 0 from rfl, List.enumFrom_map_fst,
        List.range_eq_range']
    rw [show argsortStable sim
        = (insertionSort enumLexLe sim.enum).map Prod.fst from rfl, ← henumfst]
    exact hperm.map _
  · rw [show argsortStable sim
        = (insertionSort enumLexLe sim.enum).map Prod.fst from rfl,
      List.pairwise_map]
    apply (pairwise_insertionSort htrans htotal sim.enum).imp_of_mem
    intro p q hp hq hle
    rcases mem_enum_getD (hperm.mem_iff.mp hp) with ⟨hpv, _⟩
    rcases mem_enum_getD (hperm.mem_iff.mp hq) with ⟨hqv, _⟩
    simp only [enumLexLe, decide_eq_true_eq] at hle
    unfold simD
    rw [hpv, hqv]
    omega

/-- C4 amended: for every argsort output `numpy.argsort` may produce
(an ascending permutation of the positions; tie order unspecified), the
slice-reverse-gather tail of `retrieve_chunks` returns, for `1 ≤ topK`,
exactly `min topK n` chunks — so exactly `topK` whenever
`1 ≤ topK ≤ n` — in non-increasing-similarity order, the returned
indices distinct and in range, and every returned chunk's similarity at
least that of every non-returned chunk; for `topK = 0` or `topK > n` it
returns all chunks in that order.  Which tied chunks are returned at
the cut boundary and their mutual order follow the argsort's
unspecified tie order (in the small-array regime the tie order is
provably the *reverse* of the original order — see the
counterexample). -/
theorem retrieve_given_argsort_spec {α : Type} (docs : List α) (sim : List Int)
    (arg : List Nat) (k : Nat)
    (hlen : sim.length = docs.length)
    (harg : isArgsortOf sim arg) :
    retrieve_given_argsort docs arg k
      = (retrieveIdxGiven arg k).filterMap (fun i => docs[i]?)
    ∧ (∀ i ∈ retrieveIdxGiven arg k, i < docs.length)
    ∧ (1 ≤ k → (retrieveIdxGiven arg k).length = min k docs.length)
    ∧ (1 ≤ k → (retrieve_given_argsort docs arg k).length = min k docs.length)
    ∧ (k = 0 ∨ docs.length ≤ k →
        List.Perm (retrieveIdxGiven arg k) (List.range docs.length))
    ∧ (retrieveIdxGiven arg k).Nodup
    ∧ (retrieveIdxGiven arg k).Pairwise (fun i j => simD sim j ≤ simD sim i)
    ∧ (∀ i ∈ retrieveIdxGiven arg k, ∀ j, j < sim.length →
        ¬ j ∈ retrieveIdxGiven arg k → simD sim j ≤ simD sim i) := by
  rcases harg with ⟨hperm, hsorted⟩
  have hlen_arg : arg.length = sim.length :=
    hperm.length_eq.trans (List.length_range _)
  have hmem_arg : ∀ i ∈ arg, i < sim.length := by
    intro i hi
    exact List.mem_range.mp (hperm.mem_iff.mp hi)
  have hslice : pyLastSlice k arg
      = arg.drop (if k = 0 then 0 else arg.length - k) := by
    by_cases hk : k = 0
    · simp [pyLastSlice, hk]
    · simp [pyLastSlice, hk]
  have hidx : retrieveIdxGiven arg k
      = (arg.drop (if k = 0 then 0 else arg.length - k)).reverse := by
    unfold retrieveIdxGiven
    rw [hslice]
  have hmem_idx : ∀ i, i ∈ retrieveIdxGiven arg k ↔
      i ∈ arg.drop (if k = 0 then 0 else arg.length - k) := by
    intro i
    rw [hidx, List.mem_reverse]
  have hinrange : ∀ i ∈ retrieveIdxGiven arg k, i < docs.length := by
    intro i hi
    rw [← hlen]
    exact hmem_arg i (List.mem_of_mem_drop ((hmem_idx i).mp hi))
  have hidxlen : 1 ≤ k → (retrieveIdxGiven arg k).length = min k docs.length := by
    intro hk
    rw [hidx, List.length_reverse, List.length_drop]
    have hk0 : ¬ k = 0 := by omega
    rw [if_neg hk0, hlen_arg, hlen, Nat.min_def]
    split <;> omega
  refine ⟨rfl, hinrange, hidxlen, ?_, ?_, ?_, ?_, ?_⟩
  · intro hk
    unfold retrieve_given_argsort
    rw [length_filterMap_index docs _ hinrange]
    exact hidxlen hk
  · intro hk
    have hm0 : (if k = 0 then 0 else arg.length - k) = 0 := by
      rcases hk with hk | hk
      · rw [if_pos hk]
      · by_cases hk0 : k = 0
        · rw [if_pos hk0]
        · rw [if_neg hk0, hlen_arg, hlen]
          omega
    rw [hidx, hm0, List.drop_zero, ← hlen]
    exact (List.reverse_perm _).trans hperm
  · rw [hidx]
    exact List.nodup_reverse.mpr
      (((hperm.nodup_iff).mpr (List.nodup_range _)).sublist
        (List.drop_sublist _ _))
  · rw [hidx, List.pairwise_reverse]
    exact List.Pairwise.sublist (List.drop_sublist _ _) hsorted
  · intro i hi j hj hnj
    have hsplit := List.take_append_drop
      (if k = 0 then 0 else arg.length - k) arg
    have hpw : ((arg.take (if k = 0 then 0 else arg.length - k))
        ++ arg.drop (if k = 0 then 0 else arg.length - k)).Pairwise
        (fun a b => simD sim a ≤ simD sim b) := by
      rw [hsplit]
      exact hsorted
    have hcross := (List.pairwise_append.mp hpw).2.2
    have hj_arg : j ∈ arg.take (if k = 0 then 0 else arg.length - k)
        ++ arg.drop (if k = 0 then 0 else arg.length - k) := by
      rw [hsplit]
      exact hperm.mem_iff.mpr (List.mem_range.mpr hj)
    rcases List.mem_append.mp hj_arg with hjtake | hjdrop
    · exact hcross j hjtake i ((hmem_idx i).mp hi)
    · exact absurd ((hmem_idx j).mpr hjdrop) hnj

/-- C4 amended witness: similarities `[5, 9, 5]`, the ascending argsort
`[0, 2, 1]`, `topK = 2`: exactly two chunks come back. -/
theorem retrieve_given_argsort_spec_witness :
    (retrieve_given_argsort ([10, 20, 30] : List Nat) [0, 2, 1] 2).length
      = min 2 3 :=
  (retrieve_given_argsort_spec ([10, 20, 30] : List Nat) [5, 9, 5] [0, 2, 1] 2
    rfl ⟨by decide, by decide⟩).2.2.2.1 (by decide)
